import Mathlib

/-!
# Currency Strength Meter — formal model

Shallow embedding of the Currency Strength Engine of
`trading_dashboard.py` (`show_currency_meter`): filtering a quote list to
the seven-major-pair basket, attributing one signed strength score per
currency, pinning USD to 0, and ranking by descending strength.
Change percentages are modelled as rationals. Two value models are used
for the `changesPercentage` cell: the main model keeps a missing/null
value as `Option.none` and coerces it to 0 at the loop's guard (the
guard's documented intent); a second model (`PdFloat`) reflects what the
loop actually reads when `pd.DataFrame` infers a numeric float64 column,
where a null has already become NaN and the `is None` guard cannot fire.
-/

/-- One FX pair observation as consumed by the engine:
`symbol` and an optional `changesPercentage` (null modelled as `none`). -/
structure Quote where
  symbol : String
  changesPercentage : Option ℚ
deriving DecidableEq, Repr

/-- The fixed basket of seven major pairs (`majors` in the source). -/
def majors : List String :=
  ["EURUSD", "GBPUSD", "USDJPY", "USDCHF", "AUDUSD", "USDCAD", "NZDUSD"]

/-- The pairs handled by the first branch of the attribution loop
(`['EURUSD', 'GBPUSD', 'AUDUSD', 'NZDUSD']`): currency first, USD quoted. -/
def basePairs : List String := ["EURUSD", "GBPUSD", "AUDUSD", "NZDUSD"]

/-- The pairs handled by the second branch
(`['USDJPY', 'USDCHF', 'USDCAD']`): USD first, currency quoted. -/
def usdPairs : List String := ["USDJPY", "USDCHF", "USDCAD"]

/-- Python-dict assignment `d[k] = v` on an insertion-ordered association
list: overwrite in place when the key exists, append otherwise. -/
def dictInsert (d : List (String × ℚ)) (k : String) (v : ℚ) :
    List (String × ℚ) :=
  if d.any (fun p => p.1 = k) then
    d.map (fun p => if p.1 = k then (k, v) else p)
  else d ++ [(k, v)]

/-- One iteration of the attribution loop over a retained row:
null change coerced to 0, then `strength_scores[sym[:3]] = change` for
base-quoted pairs and `strength_scores[sym[3:]] = -change` for USD-quoted
pairs. -/
def processQuote (d : List (String × ℚ)) (q : Quote) : List (String × ℚ) :=
  let change := q.changesPercentage.getD 0
  if q.symbol ∈ basePairs then
    dictInsert d (q.symbol.take 3) change
  else if q.symbol ∈ usdPairs then
    dictInsert d (q.symbol.drop 3) (-change)
  else d

/-- The `strength_scores` dict after the loop over the filtered rows and
the final `strength_scores['USD'] = 0.0`. -/
def strengthScores (df : List Quote) : List (String × ℚ) :=
  dictInsert (df.foldl processQuote []) "USD" 0

/-- Ranking order used for `sort_values(by='Fuerza', ascending=False)`:
descending strength. -/
def byStrengthDesc : (String × ℚ) → (String × ℚ) → Prop :=
  fun a b => b.2 ≤ a.2

instance : DecidableRel byStrengthDesc :=
  fun a b => inferInstanceAs (Decidable (b.2 ≤ a.2))

instance : IsTotal (String × ℚ) byStrengthDesc :=
  ⟨fun a b => le_total b.2 a.2⟩

instance : IsTrans (String × ℚ) byStrengthDesc :=
  ⟨fun _ _ _ h h' => le_trans h' h⟩

/-- The payload returned by `get_json("quotes/forex")` as the function
inspects it: a JSON list of quote records, a JSON object (dict), or
anything else. -/
inductive Payload where
  | list (records : List Quote)
  | dict (fields : List (String × String))
  | other
deriving DecidableEq, Repr

/-- The user-visible outcome of `show_currency_meter`: a rendered ranked
score table (with chart), the "No se encontraron datos recientes de
Forex" warning, the API error message, or the generic load error. -/
inductive MeterOutcome where
  | scores (table : List (String × ℚ))
  | noRecentData
  | apiError (msg : String)
  | loadError
deriving DecidableEq, Repr

/-- `'Error Message' in data` for a dict payload. -/
def hasErrorMessage (fields : List (String × String)) : Bool :=
  fields.any (fun p => p.1 = "Error Message")

/-- `df = df[df['symbol'].isin(majors)]`: the rows retained by the basket
filter, in input order. -/
def filteredQuotes (data : List Quote) : List Quote :=
  data.filter (fun q => decide (q.symbol ∈ majors))

/-- `df_strength` after `sort_values(by='Fuerza', ascending=False)`: the
score dict as records ranked by descending strength. -/
def rankedScores (df : List Quote) : List (String × ℚ) :=
  List.insertionSort byStrengthDesc (strengthScores df)

/-- The control flow of `show_currency_meter` on the fetched payload:
list-and-nonempty check, basket filter, empty-after-filter early return,
attribution loop, USD pivot, descending sort; dict-with-error-message and
fallback branches. -/
def show_currency_meter (data : Payload) : MeterOutcome :=
  match data with
  | .list l =>
      if l.length > 0 then
        let df := filteredQuotes l
        if df.isEmpty then .noRecentData
        else .scores (rankedScores df)
      else .loadError
  | .dict fields =>
      if hasErrorMessage fields then
        .apiError (((fields.filter (fun p => p.1 = "Error Message")).head?.map
          Prod.snd).getD "")
      else .loadError
  | .other => .loadError

/-- The currency a basket symbol's score is attributed to: first three
letters for base-quoted pairs, last three for USD-quoted pairs. -/
def currencyOf (s : String) : String :=
  if s ∈ basePairs then s.take 3 else s.drop 3

/-- The signed score a retained quote writes for its currency: the change
for base-quoted pairs, its negation for USD-quoted pairs (null as 0). -/
def signedChange (q : Quote) : ℚ :=
  if q.symbol ∈ basePairs then q.changesPercentage.getD 0
  else -(q.changesPercentage.getD 0)

/-- First-match lookup in the score dict (well-defined: keys are nodup). -/
def getScore (k : String) : List (String × ℚ) → Option ℚ
  | [] => none
  | p :: l => if p.1 = k then some p.2 else getScore k l

/-- The keys of a score dict, in insertion order. -/
def keys (d : List (String × ℚ)) : List String := d.map Prod.fst

/-- The effect of one attribution step on the score recorded for a fixed
currency `k`: it becomes `signedChange q` when the quote writes `k`,
otherwise it is left alone. -/
def updScore (k : String) (a : Option ℚ) (q : Quote) : Option ℚ :=
  if q.symbol ∈ majors ∧ currencyOf q.symbol = k then some (signedChange q)
  else a

/-- Value of a `changesPercentage` cell as the loop actually reads it from
`pd.DataFrame(data)` when pandas infers a numeric (float64) column — the
case where at least one quote's change in the payload is numeric. In that
dtype a JSON null is stored as the floating NaN, never as the Python
`None` object; a numeric change is stored unchanged. -/
inductive PdFloat where
  | num (q : ℚ)
  | nan
deriving DecidableEq, Repr

/-- Negation on a float64 cell: `-NaN` is still a NaN. -/
def PdFloat.neg : PdFloat → PdFloat
  | num q => num (-q)
  | nan => nan

/-- The `change is None` test on a float64 cell: never true, because the
conversion at `pd.DataFrame(data)` has already replaced every null with
NaN in a numeric column. -/
def PdFloat.isPyNone : PdFloat → Bool := fun _ => false

/-- How `pd.DataFrame(data)` stores a payload change in a numeric
(float64) `changesPercentage` column: a number as itself, null as NaN. -/
def pdCell : Option ℚ → PdFloat
  | some c => .num c
  | none => .nan

/-- One row of the DataFrame in the float64-column case. -/
structure PdQuote where
  symbol : String
  changesPercentage : PdFloat
deriving DecidableEq, Repr

/-- Python-dict assignment on the float64-valued score dict (same
semantics as `dictInsert`). -/
def dictInsertF (d : List (String × PdFloat)) (k : String) (v : PdFloat) :
    List (String × PdFloat) :=
  if d.any (fun p => p.1 = k) then
    d.map (fun p => if p.1 = k then (k, v) else p)
  else d ++ [(k, v)]

/-- One iteration of the attribution loop over a float64 row: the
`if change is None: change = 0.0` guard (which can never fire on this
dtype), then the same two orientation branches as `processQuote`. -/
def processQuoteFloat (d : List (String × PdFloat)) (q : PdQuote) :
    List (String × PdFloat) :=
  let change := if q.changesPercentage.isPyNone then PdFloat.num 0
    else q.changesPercentage
  if q.symbol ∈ basePairs then
    dictInsertF d (q.symbol.take 3) change
  else if q.symbol ∈ usdPairs then
    dictInsertF d (q.symbol.drop 3) change.neg
  else d

/-- The `strength_scores` dict over the float64-column model, including
the final `strength_scores['USD'] = 0.0`. -/
def strengthScoresFloat (df : List PdQuote) : List (String × PdFloat) :=
  dictInsertF (df.foldl processQuoteFloat []) "USD" (.num 0)

/-- First-match lookup in the float64-valued score dict. -/
def getScoreF (k : String) : List (String × PdFloat) → Option PdFloat
  | [] => none
  | p :: l => if p.1 = k then some p.2 else getScoreF k l

/-- Sum of absolute strengths over a score table. -/
def absStrengthSum (l : List (String × ℚ)) : ℚ := (l.map (fun p => |p.2|)).sum

/-- Sum of absolute change values over an input quote list (null as 0). -/
def absChangeSum (data : List Quote) : ℚ :=
  (data.map (fun q => |q.changesPercentage.getD 0|)).sum

section Lemmas

/-- The basket is exactly the two orientation classes. -/
lemma mem_majors_iff {s : String} :
    s ∈ majors ↔ s ∈ basePairs ∨ s ∈ usdPairs := by
  constructor
  · intro h
    fin_cases h <;> decide
  · rintro (h | h) <;> fin_cases h <;> decide

/-- No basket symbol is attributed to the pivot currency USD. -/
lemma currencyOf_ne_USD {s : String} (hs : s ∈ majors) :
    currencyOf s ≠ "USD" := by
  fin_cases hs <;> decide

/-- Distinct basket symbols are attributed to distinct currencies. -/
lemma currencyOf_inj {s t : String} (hs : s ∈ majors) (ht : t ∈ majors)
    (h : currencyOf s = currencyOf t) : s = t := by
  fin_cases hs <;> fin_cases ht <;> simp_all <;> revert h <;> decide

/-- An in-place overwrite does not change the key column. -/
lemma keys_map_overwrite (d : List (String × ℚ)) (k : String) (v : ℚ) :
    keys (d.map fun p => if p.1 = k then (k, v) else p) = keys d := by
  unfold keys
  rw [List.map_map]
  congr 1
  funext p
  by_cases hp : p.1 = k <;> simp [hp]

/-- Keys after a dict assignment: unchanged on overwrite, appended on a
fresh key. -/
lemma keys_dictInsert (d : List (String × ℚ)) (k : String) (v : ℚ) :
    keys (dictInsert d k v) = if k ∈ keys d then keys d else keys d ++ [k] := by
  unfold dictInsert
  by_cases h : k ∈ keys d
  · have hany : d.any (fun p => p.1 = k) = true := by
      simp only [List.any_eq_true, decide_eq_true_eq]
      obtain ⟨p, hp, hk⟩ := List.mem_map.mp h
      exact ⟨p, hp, hk⟩
    simp only [hany, if_true, if_pos h]
    exact keys_map_overwrite d k v
  · have hany : d.any (fun p => p.1 = k) = false := by
      simp only [List.any_eq_false, decide_eq_true_eq]
      intro p hp hk
      exact h (List.mem_map.mpr ⟨p, hp, hk⟩)
    simp only [keys] at h ⊢
    simp [hany, h]

/-- Membership in the keys after a dict assignment. -/
lemma mem_keys_dictInsert {k' : String} (d : List (String × ℚ)) (k : String)
    (v : ℚ) : k' ∈ keys (dictInsert d k v) ↔ k' ∈ keys d ∨ k' = k := by
  rw [keys_dictInsert]
  by_cases h : k ∈ keys d
  · simp only [h, if_true]
    constructor
    · exact Or.inl
    · rintro (h' | rfl) <;> [exact h'; exact h]
  · simp [h]

/-- A dict assignment keeps the keys duplicate-free. -/
lemma nodup_keys_dictInsert {d : List (String × ℚ)} (hd : (keys d).Nodup)
    (k : String) (v : ℚ) : (keys (dictInsert d k v)).Nodup := by
  rw [keys_dictInsert]
  by_cases h : k ∈ keys d
  · simpa [h]
  · simp only [h, if_false]
    simp only [List.nodup_append, List.nodup_singleton, true_and,
      List.disjoint_singleton]
    simp [hd, h]

/-- A key absent from a dict reads `none`. -/
lemma getScore_eq_none (d : List (String × ℚ)) (k : String)
    (h : ∀ p ∈ d, p.1 ≠ k) : getScore k d = none := by
  induction d with
  | nil => rfl
  | cons p l ih =>
      simp only [getScore, if_neg (h p (by simp))]
      exact ih fun p hp => h p (by simp [hp])

/-- Reading the overwritten key after an in-place overwrite. -/
lemma getScore_overwrite_self (d : List (String × ℚ)) (k : String) (v : ℚ)
    (h : ∃ p ∈ d, p.1 = k) :
    getScore k (d.map (fun p => if p.1 = k then (k, v) else p)) = some v := by
  induction d with
  | nil => simp at h
  | cons p l ih =>
      by_cases hpk : p.1 = k
      · simp [getScore, hpk]
      · have h' : ∃ p ∈ l, p.1 = k := by
          obtain ⟨p', hp', he⟩ := h
          rcases List.mem_cons.mp hp' with rfl | hmem
          · exact absurd he hpk
          · exact ⟨p', hmem, he⟩
        simpa [getScore, hpk] using ih h'

/-- Reading another key after an in-place overwrite. -/
lemma getScore_overwrite_other (d : List (String × ℚ)) (k k' : String)
    (v : ℚ) (h : k' ≠ k) :
    getScore k' (d.map (fun p => if p.1 = k then (k, v) else p)) =
      getScore k' d := by
  induction d with
  | nil => rfl
  | cons p l ih =>
      by_cases hpk : p.1 = k
      · have hne : p.1 ≠ k' := fun he => h (he.symm.trans hpk)
        simp [getScore, hpk, Ne.symm h, hne, ih]
      · by_cases hq : p.1 = k'
        · simp [getScore, hpk, hq, h]
        · simp [getScore, hpk, hq, h, ih]

/-- Reading the appended key after appending a fresh binding. -/
lemma getScore_append_self (d : List (String × ℚ)) (k : String) (v : ℚ)
    (h : ∀ p ∈ d, p.1 ≠ k) : getScore k (d ++ [(k, v)]) = some v := by
  induction d with
  | nil => simp [getScore]
  | cons p l ih =>
      simp only [List.cons_append, getScore, if_neg (h p (by simp))]
      exact ih fun p hp => h p (by simp [hp])

/-- Reading another key after appending a fresh binding. -/
lemma getScore_append_other (d : List (String × ℚ)) (k k' : String) (v : ℚ)
    (h : k' ≠ k) : getScore k' (d ++ [(k, v)]) = getScore k' d := by
  induction d with
  | nil => simp [getScore, Ne.symm h]
  | cons p l ih =>
      by_cases hq : p.1 = k'
      · simp [getScore, hq]
      · simp [getScore, hq, ih]

/-- Looking up after a dict assignment: the assigned key reads the new
value, every other key is untouched. -/
lemma getScore_dictInsert (d : List (String × ℚ)) (k k' : String) (v : ℚ) :
    getScore k' (dictInsert d k v) = if k' = k then some v else getScore k' d := by
  unfold dictInsert
  by_cases hany : d.any (fun p => p.1 = k) = true
  · have hex : ∃ p ∈ d, p.1 = k := by
      simpa only [List.any_eq_true, decide_eq_true_eq] using hany
    by_cases hk : k' = k
    · subst hk
      simp [hany, getScore_overwrite_self d k' v hex]
    · simp [hany, hk, getScore_overwrite_other d k k' v hk]
  · have hall : ∀ p ∈ d, p.1 ≠ k := by
      intro p hp hk
      exact hany (by
        simp only [List.any_eq_true, decide_eq_true_eq]
        exact ⟨p, hp, hk⟩)
    by_cases hk : k' = k
    · subst hk
      simp [hany, getScore_append_self d k' v hall]
    · simp [hany, hk, getScore_append_other d k k' v hk]

/-- The two orientation branches are disjoint. -/
lemma usdPairs_not_basePairs {s : String} (h : s ∈ usdPairs) :
    s ∉ basePairs := by
  fin_cases h <;> decide

/-- On a basket symbol the loop body is a dict assignment of the
attributed currency to the signed change. -/
lemma processQuote_major {q : Quote} (h : q.symbol ∈ majors)
    (d : List (String × ℚ)) :
    processQuote d q = dictInsert d (currencyOf q.symbol) (signedChange q) := by
  rcases mem_majors_iff.mp h with hb | hu
  · simp [processQuote, currencyOf, signedChange, hb]
  · simp [processQuote, currencyOf, signedChange, hu, usdPairs_not_basePairs hu]

/-- On a non-basket symbol the loop body leaves the dict alone. -/
lemma processQuote_nonmajor {q : Quote} (h : q.symbol ∉ majors)
    (d : List (String × ℚ)) : processQuote d q = d := by
  have hb : q.symbol ∉ basePairs := fun hb => h (mem_majors_iff.mpr (Or.inl hb))
  have hu : q.symbol ∉ usdPairs := fun hu => h (mem_majors_iff.mpr (Or.inr hu))
  simp [processQuote, hb, hu]

/-- One loop iteration, seen through the lens of a fixed currency `k`. -/
lemma getScore_processQuote (d : List (String × ℚ)) (q : Quote) (k : String) :
    getScore k (processQuote d q) = updScore k (getScore k d) q := by
  by_cases hm : q.symbol ∈ majors
  · rw [processQuote_major hm, getScore_dictInsert]
    by_cases hc : currencyOf q.symbol = k
    · subst hc
      simp [updScore, hm]
    · rw [if_neg fun he => hc he.symm]
      simp [updScore, hm, hc]
  · rw [processQuote_nonmajor hm]
    simp [updScore, hm]

/-- The whole attribution loop, seen through the lens of a fixed
currency `k`. -/
lemma getScore_foldl (l : List Quote) (k : String) :
    ∀ d, getScore k (l.foldl processQuote d) =
      l.foldl (updScore k) (getScore k d) := by
  induction l with
  | nil => intro d; rfl
  | cons q l ih =>
      intro d
      simp only [List.foldl_cons]
      rw [ih, getScore_processQuote]

/-- A currency is a key after the loop iff it was one before or some
processed quote attributes to it. -/
lemma mem_keys_foldl (l : List Quote) (k : String) :
    ∀ d, k ∈ keys (l.foldl processQuote d) ↔
      k ∈ keys d ∨ ∃ q ∈ l, q.symbol ∈ majors ∧ currencyOf q.symbol = k := by
  induction l with
  | nil => simp
  | cons q l ih =>
      intro d
      simp only [List.foldl_cons]
      rw [ih]
      by_cases hm : q.symbol ∈ majors
      · rw [processQuote_major hm, mem_keys_dictInsert]
        simp only [List.mem_cons]
        constructor
        · rintro (⟨hk | rfl⟩ | ⟨r, hr, hrm, hrc⟩)
          · exact Or.inl hk
          · exact Or.inr ⟨q, Or.inl rfl, hm, rfl⟩
          · exact Or.inr ⟨r, Or.inr hr, hrm, hrc⟩
        · rintro (hk | ⟨r, rfl | hr, hrm, hrc⟩)
          · exact Or.inl (Or.inl hk)
          · exact Or.inl (Or.inr hrc.symm)
          · exact Or.inr ⟨r, hr, hrm, hrc⟩
      · rw [processQuote_nonmajor hm]
        simp only [List.mem_cons]
        constructor
        · rintro (hk | ⟨r, hr, hrm, hrc⟩)
          · exact Or.inl hk
          · exact Or.inr ⟨r, Or.inr hr, hrm, hrc⟩
        · rintro (hk | ⟨r, rfl | hr, hrm, hrc⟩)
          · exact Or.inl hk
          · exact absurd hrm hm
          · exact Or.inr ⟨r, hr, hrm, hrc⟩

/-- The loop keeps the dict's keys duplicate-free. -/
lemma nodup_keys_foldl (l : List Quote) :
    ∀ d, (keys d).Nodup → (keys (l.foldl processQuote d)).Nodup := by
  induction l with
  | nil => exact fun d h => h
  | cons q l ih =>
      intro d h
      simp only [List.foldl_cons]
      apply ih
      by_cases hm : q.symbol ∈ majors
      · rw [processQuote_major hm]
        exact nodup_keys_dictInsert h _ _
      · rwa [processQuote_nonmajor hm]

/-- The pivot: USD reads exactly 0 in the final dict. -/
lemma getScore_USD (df : List Quote) :
    getScore "USD" (strengthScores df) = some 0 := by
  unfold strengthScores
  rw [getScore_dictInsert]
  simp

/-- Any non-USD currency reads from the final dict what the loop left
for it. -/
lemma getScore_strengthScores (df : List Quote) (k : String)
    (hk : k ≠ "USD") :
    getScore k (strengthScores df) = df.foldl (updScore k) none := by
  unfold strengthScores
  rw [getScore_dictInsert, if_neg hk, getScore_foldl]
  rfl

/-- The final dict's keys are duplicate-free: one row per currency. -/
lemma nodup_keys_strengthScores (df : List Quote) :
    (keys (strengthScores df)).Nodup := by
  unfold strengthScores
  exact nodup_keys_dictInsert (nodup_keys_foldl df [] (by simp [keys])) _ _

/-- The final dict's key set: observed basket currencies plus USD. -/
lemma mem_keys_strengthScores (df : List Quote) (k : String) :
    k ∈ keys (strengthScores df) ↔
      k = "USD" ∨ ∃ q ∈ df, q.symbol ∈ majors ∧ currencyOf q.symbol = k := by
  unfold strengthScores
  rw [mem_keys_dictInsert, mem_keys_foldl]
  simp only [keys, List.map_nil, List.not_mem_nil, false_or]
  exact or_comm

/-- A successful lookup is a member of the dict. -/
lemma getScore_some_mem {d : List (String × ℚ)} {k : String} {v : ℚ}
    (h : getScore k d = some v) : (k, v) ∈ d := by
  induction d with
  | nil => simp [getScore] at h
  | cons p l ih =>
      obtain ⟨a, b⟩ := p
      by_cases hp : a = k
      · simp [getScore, hp] at h
        simp [hp, h]
      · simp [getScore, hp] at h
        exact List.mem_cons_of_mem _ (ih h)

/-- With duplicate-free keys, membership determines the lookup. -/
lemma getScore_of_mem {d : List (String × ℚ)} (hd : (keys d).Nodup)
    {k : String} {v : ℚ} (h : (k, v) ∈ d) : getScore k d = some v := by
  induction d with
  | nil => simp at h
  | cons p l ih =>
      simp only [keys, List.map_cons, List.nodup_cons] at hd
      rcases List.mem_cons.mp h with rfl | hmem
      · simp [getScore]
      · have hp : p.1 ≠ k := by
          intro he
          exact hd.1 (he ▸ List.mem_map.mpr ⟨(k, v), hmem, rfl⟩)
        simp only [getScore, if_neg hp]
        exact ih hd.2 hmem

/-- An empty lookup means the key is absent. -/
lemma getScore_none_iff {d : List (String × ℚ)} {k : String} :
    getScore k d = none ↔ k ∉ keys d := by
  induction d with
  | nil => simp [getScore, keys]
  | cons p l ih =>
      by_cases hp : p.1 = k
      · simp [getScore, hp, keys]
      · simp [getScore, hp, keys, Ne.symm hp] at *
        exact ih

/-- Lookup is invariant under permutation when keys are duplicate-free. -/
lemma getScore_perm {d₁ d₂ : List (String × ℚ)} (hp : d₁.Perm d₂)
    (hd : (keys d₁).Nodup) (k : String) : getScore k d₁ = getScore k d₂ := by
  have hd₂ : (keys d₂).Nodup := ((hp.map Prod.fst).nodup_iff).mp hd
  cases h : getScore k d₁ with
  | none =>
      symm
      rw [getScore_none_iff] at h ⊢
      exact fun hk => h (((hp.map Prod.fst).mem_iff).mpr hk)
  | some v =>
      exact (getScore_of_mem hd₂ (hp.subset (getScore_some_mem h))).symm

/-- The ranked table is a permutation of the score dict. -/
lemma rankedScores_perm (df : List Quote) :
    (rankedScores df).Perm (strengthScores df) :=
  List.perm_insertionSort _ _

/-- The ranked table's keys are duplicate-free. -/
lemma nodup_keys_rankedScores (df : List Quote) :
    (keys (rankedScores df)).Nodup :=
  (((rankedScores_perm df).map Prod.fst).nodup_iff).mpr
    (nodup_keys_strengthScores df)

/-- Lookup in the ranked table agrees with lookup in the score dict. -/
lemma getScore_rankedScores (df : List Quote) (k : String) :
    getScore k (rankedScores df) = getScore k (strengthScores df) :=
  getScore_perm (rankedScores_perm df) (nodup_keys_rankedScores df) k

/-- The ranked table is sorted by descending strength. -/
lemma sorted_rankedScores (df : List Quote) :
    (rankedScores df).Pairwise (fun a b => b.2 ≤ a.2) := by
  have h := List.sorted_insertionSort byStrengthDesc (strengthScores df)
  exact h.imp fun hab => hab

/-- Inversion for the score-table outcome: it happens exactly when the
filtered quotes are nonempty, and the table is the ranked score dict. -/
lemma show_scores_iff {data : List Quote} {t : List (String × ℚ)} :
    show_currency_meter (.list data) = .scores t ↔
      filteredQuotes data ≠ [] ∧ t = rankedScores (filteredQuotes data) := by
  unfold show_currency_meter
  by_cases h0 : data.length > 0
  · simp only [if_pos h0]
    by_cases he : (filteredQuotes data).isEmpty
    · rw [List.isEmpty_iff] at he
      simp [he]
    · rw [List.isEmpty_iff] at he
      simp only [List.isEmpty_iff, if_neg he, MeterOutcome.scores.injEq]
      constructor
      · exact fun h => ⟨he, h.symm⟩
      · exact fun h => h.2.symm
  · have hnil : data = [] := by
      cases data with
      | nil => rfl
      | cons q l => simp at h0
    subst hnil
    simp [filteredQuotes]

/-- Quotes that do not attribute to `k` leave `k`'s score alone. -/
lemma foldl_updScore_no_write (k : String) (l : List Quote) :
    ∀ a, (∀ r ∈ l, ¬(r.symbol ∈ majors ∧ currencyOf r.symbol = k)) →
      l.foldl (updScore k) a = a := by
  induction l with
  | nil => intro a _; rfl
  | cons r l ih =>
      intro a h
      simp only [List.foldl_cons]
      rw [show updScore k a r = a from by simp [updScore, h r (by simp)]]
      exact ih a fun r hr => h r (by simp [hr])

/-- The score of `k` after the loop is the one written by the last quote
attributing to `k`. -/
lemma foldl_updScore_last (k : String) (l₁ l₂ : List Quote) (q : Quote)
    (a : Option ℚ) (hm : q.symbol ∈ majors) (hk : currencyOf q.symbol = k)
    (h₂ : ∀ r ∈ l₂, ¬(r.symbol ∈ majors ∧ currencyOf r.symbol = k)) :
    (l₁ ++ q :: l₂).foldl (updScore k) a = some (signedChange q) := by
  rw [List.foldl_append]
  simp only [List.foldl_cons]
  rw [show updScore k (l₁.foldl (updScore k) a) q = some (signedChange q) from
    by simp [updScore, hm, hk]]
  exact foldl_updScore_no_write k l₂ _ h₂

/-- The filter retains a basket quote and drops nothing around it. -/
lemma filteredQuotes_append (l₁ l₂ : List Quote) :
    filteredQuotes (l₁ ++ l₂) = filteredQuotes l₁ ++ filteredQuotes l₂ := by
  simp [filteredQuotes]

/-- Members of the filtered list come from the input. -/
lemma mem_of_mem_filteredQuotes {r : Quote} {l : List Quote}
    (h : r ∈ filteredQuotes l) : r ∈ l :=
  (List.mem_filter.mp h).1

/-- The ranked table's score for the currency of a basket quote that is
the last of its symbol in the input: exactly that quote's signed change. -/
lemma getScore_last_occurrence (l₁ l₂ : List Quote) (q : Quote)
    (hm : q.symbol ∈ majors) (hlast : ∀ r ∈ l₂, r.symbol ≠ q.symbol) :
    getScore (currencyOf q.symbol)
        (rankedScores (filteredQuotes (l₁ ++ q :: l₂))) =
      some (signedChange q) := by
  rw [getScore_rankedScores,
    getScore_strengthScores _ _ (currencyOf_ne_USD hm)]
  have hdf : filteredQuotes (l₁ ++ q :: l₂) =
      filteredQuotes l₁ ++ q :: filteredQuotes l₂ := by
    rw [filteredQuotes_append]
    simp [filteredQuotes, hm]
  rw [hdf]
  refine foldl_updScore_last _ _ _ _ _ hm rfl ?_
  rintro r hr ⟨hrm, hrc⟩
  exact hlast r (mem_of_mem_filteredQuotes hr) (currencyOf_inj hrm hm hrc)

/-- Assigning a fresh key appends its binding. -/
lemma dictInsert_fresh {d : List (String × ℚ)} {k : String} (v : ℚ)
    (h : k ∉ keys d) : dictInsert d k v = d ++ [(k, v)] := by
  unfold dictInsert
  rw [if_neg]
  intro hany
  simp only [List.any_eq_true, decide_eq_true_eq] at hany
  obtain ⟨p, hp, hk⟩ := hany
  exact h (List.mem_map.mpr ⟨p, hp, hk⟩)

/-- When every quote is a basket quote and no symbol repeats, the loop
records the quotes one-to-one, in input order. -/
lemma foldl_processQuote_all_major (data : List Quote) :
    ∀ d, (∀ q ∈ data, q.symbol ∈ majors) → (data.map Quote.symbol).Nodup →
      (∀ q ∈ data, currencyOf q.symbol ∉ keys d) →
      data.foldl processQuote d =
        d ++ data.map (fun q => (currencyOf q.symbol, signedChange q)) := by
  induction data with
  | nil => simp
  | cons q l ih =>
      intro d hmaj hnd hfresh
      have hqm : q.symbol ∈ majors := hmaj q (by simp)
      simp only [List.foldl_cons]
      rw [processQuote_major hqm,
        dictInsert_fresh (signedChange q) (hfresh q (by simp))]
      simp only [List.map_cons, List.nodup_cons] at hnd
      rw [ih (d ++ [(currencyOf q.symbol, signedChange q)])
        (fun r hr => hmaj r (by simp [hr])) hnd.2 ?_]
      · simp
      · intro r hr
        have hkeys : keys (d ++ [(currencyOf q.symbol, signedChange q)]) =
            keys d ++ [currencyOf q.symbol] := by
          simp [keys]
        rw [hkeys]
        simp only [List.mem_append, List.mem_singleton]
        rintro (hd | hc)
        · exact hfresh r (by simp [hr]) hd
        · exact hnd.1 (currencyOf_inj (hmaj r (by simp [hr])) hqm hc ▸
            List.mem_map.mpr ⟨r, hr, rfl⟩)

/-- When every quote is a basket quote and no symbol repeats, the final
dict is exactly one record per quote plus the USD pivot. -/
lemma strengthScores_all_major (data : List Quote)
    (hmaj : ∀ q ∈ data, q.symbol ∈ majors)
    (hnd : (data.map Quote.symbol).Nodup) :
    strengthScores data =
      data.map (fun q => (currencyOf q.symbol, signedChange q)) ++
        [("USD", 0)] := by
  unfold strengthScores
  rw [foldl_processQuote_all_major data [] hmaj hnd (by simp [keys]),
    List.nil_append, dictInsert_fresh]
  intro h
  simp only [keys, List.map_map, List.mem_map] at h
  obtain ⟨q, hq, hc⟩ := h
  exact currencyOf_ne_USD (hmaj q hq) hc

end Lemmas

/-- C2: whenever the input list contains at least one quote whose symbol
is in the seven-pair basket, the engine renders a score table and that
table contains the entry USD with strength exactly 0. -/
theorem claim_C2_usd_pivot (data : List Quote)
    (h : ∃ q ∈ data, q.symbol ∈ majors) :
    ∃ t, show_currency_meter (.list data) = .scores t ∧
      ("USD", (0 : ℚ)) ∈ t := by
  obtain ⟨q, hq, hm⟩ := h
  have hdf : q ∈ filteredQuotes data := List.mem_filter.mpr ⟨hq, by simpa⟩
  have hne : filteredQuotes data ≠ [] := fun hnil => by simp [hnil] at hdf
  refine ⟨_, show_scores_iff.mpr ⟨hne, rfl⟩, ?_⟩
  apply getScore_some_mem
  rw [getScore_rankedScores]
  exact getScore_USD _

/-- Witness for C2 at the concrete input `[{EURUSD, +1}]`. -/
theorem claim_C2_witness :
    ∃ t, show_currency_meter (.list [⟨"EURUSD", some 1⟩]) = .scores t ∧
      ("USD", (0 : ℚ)) ∈ t :=
  claim_C2_usd_pivot _ ⟨⟨"EURUSD", some 1⟩, by simp, by decide⟩

/-- C3: whenever the engine renders a score table, its currency set is
exactly the set of currencies attributed by basket quotes occurring in
the input, together with USD; a basket currency whose pair never occurs
is absent. -/
theorem claim_C3_observed_currencies (data : List Quote)
    (t : List (String × ℚ))
    (ht : show_currency_meter (.list data) = .scores t) (c : String) :
    c ∈ keys t ↔
      c = "USD" ∨ ∃ q ∈ data, q.symbol ∈ majors ∧ currencyOf q.symbol = c := by
  obtain ⟨hne, rfl⟩ := show_scores_iff.mp ht
  rw [show (c ∈ keys (rankedScores (filteredQuotes data)) ↔
      c ∈ keys (strengthScores (filteredQuotes data))) from
    ((rankedScores_perm _).map Prod.fst).mem_iff]
  rw [mem_keys_strengthScores]
  constructor
  · rintro (h | ⟨q, hq, hm, hc⟩)
    · exact Or.inl h
    · exact Or.inr ⟨q, mem_of_mem_filteredQuotes hq, hm, hc⟩
  · rintro (h | ⟨q, hq, hm, hc⟩)
    · exact Or.inl h
    · exact Or.inr ⟨q, List.mem_filter.mpr ⟨hq, by simpa⟩, hm, hc⟩

/-- Witness for C3 at the concrete input `[{EURUSD, +1}]` and the absent
basket currency GBP. -/
theorem claim_C3_witness :
    "GBP" ∈ keys [("EUR", (1 : ℚ)), ("USD", 0)] ↔
      "GBP" = "USD" ∨ ∃ q ∈ [(⟨"EURUSD", some 1⟩ : Quote)],
        q.symbol ∈ majors ∧ currencyOf q.symbol = "GBP" :=
  claim_C3_observed_currencies [⟨"EURUSD", some 1⟩] _
    (by with_unfolding_all decide) "GBP"

/-- C4: every rendered score table is sorted by descending strength, and
the input `[{EURUSD, +0.50}, {USDJPY, +0.30}]` renders exactly
`EUR:0.50, USD:0, JPY:-0.30` in that order. -/
theorem claim_C4_sorted_desc :
    (∀ (p : Payload) (t : List (String × ℚ)),
      show_currency_meter p = .scores t →
        t.Pairwise (fun a b => b.2 ≤ a.2)) ∧
    show_currency_meter (.list [⟨"EURUSD", some 0.5⟩, ⟨"USDJPY", some 0.3⟩]) =
      .scores [("EUR", 0.5), ("USD", 0), ("JPY", -0.3)] := by
  constructor
  · intro p t ht
    cases p with
    | list l =>
        obtain ⟨hne, rfl⟩ := show_scores_iff.mp ht
        exact sorted_rankedScores _
    | dict f =>
        by_cases he : hasErrorMessage f <;> simp [show_currency_meter, he] at ht
    | other => simp [show_currency_meter] at ht
  · with_unfolding_all decide

/-- Witness for C4: the table of Scenario 1 is sorted descending. -/
theorem claim_C4_witness :
    ([("EUR", (0.5 : ℚ)), ("USD", 0), ("JPY", -0.3)]).Pairwise
      (fun a b => b.2 ≤ a.2) :=
  claim_C4_sorted_desc.1 (.list [⟨"EURUSD", some 0.5⟩, ⟨"USDJPY", some 0.3⟩])
    _ claim_C4_sorted_desc.2

/-- C6: a quote whose symbol is outside the basket is ignored: deleting
it from the input leaves the engine's ranked output unchanged, and no
currency of any rendered table is derived from it — every non-USD table
currency is attributed by a basket quote among the remaining ones. -/
theorem claim_C6_unknown_ignored (l₁ l₂ : List Quote) (q : Quote)
    (hq : q.symbol ∉ majors) :
    rankedScores (filteredQuotes (l₁ ++ q :: l₂)) =
      rankedScores (filteredQuotes (l₁ ++ l₂)) ∧
    ∀ t, show_currency_meter (.list (l₁ ++ q :: l₂)) = .scores t →
      ∀ c ∈ keys t, c = "USD" ∨
        ∃ r ∈ l₁ ++ l₂, r.symbol ∈ majors ∧ currencyOf r.symbol = c := by
  have hdf : filteredQuotes (l₁ ++ q :: l₂) = filteredQuotes (l₁ ++ l₂) := by
    rw [filteredQuotes_append, filteredQuotes_append]
    simp [filteredQuotes, hq]
  refine ⟨by rw [hdf], ?_⟩
  intro t ht c hc
  obtain ⟨hne, rfl⟩ := show_scores_iff.mp ht
  rw [hdf] at hc
  rw [show (c ∈ keys (rankedScores (filteredQuotes (l₁ ++ l₂))) ↔
      c ∈ keys (strengthScores (filteredQuotes (l₁ ++ l₂)))) from
    ((rankedScores_perm _).map Prod.fst).mem_iff, mem_keys_strengthScores] at hc
  rcases hc with h | ⟨r, hr, hrm, hrc⟩
  · exact Or.inl h
  · exact Or.inr ⟨r, mem_of_mem_filteredQuotes hr, hrm, hrc⟩

/-- Witness for C6 at Scenario 4's input `[{BTCUSD, +5}, {AUDUSD, +0.10}]`. -/
theorem claim_C6_witness :
    rankedScores (filteredQuotes
        ([] ++ (⟨"BTCUSD", some 5⟩ : Quote) :: [⟨"AUDUSD", some 0.1⟩])) =
      rankedScores (filteredQuotes ([] ++ [⟨"AUDUSD", some 0.1⟩])) ∧
    ∀ t, show_currency_meter
        (.list ([] ++ (⟨"BTCUSD", some 5⟩ : Quote) :: [⟨"AUDUSD", some 0.1⟩])) =
        .scores t →
      ∀ c ∈ keys t, c = "USD" ∨
        ∃ r ∈ ([] ++ [(⟨"AUDUSD", some 0.1⟩ : Quote)]),
          r.symbol ∈ majors ∧ currencyOf r.symbol = c :=
  claim_C6_unknown_ignored [] [⟨"AUDUSD", some 0.1⟩] ⟨"BTCUSD", some 5⟩
    (by decide)

/-- C7: a non-empty input list containing no basket symbol leads to the
"no recent Forex data" outcome: no score records and no chart. -/
theorem claim_C7_empty_after_filter (data : List Quote) (hne : data ≠ [])
    (h : ∀ q ∈ data, q.symbol ∉ majors) :
    show_currency_meter (.list data) = .noRecentData := by
  have hlen : 0 < data.length := List.length_pos.mpr hne
  have hdf : (filteredQuotes data).isEmpty := by
    rw [List.isEmpty_iff]
    refine List.filter_eq_nil_iff.mpr fun q hq => ?_
    simpa using h q hq
  simp [show_currency_meter, hlen, hdf]

/-- Witness for C7 at the concrete input `[{BTCUSD, +5}]`. -/
theorem claim_C7_witness :
    show_currency_meter (.list [⟨"BTCUSD", some 5⟩]) = .noRecentData :=
  claim_C7_empty_after_filter [⟨"BTCUSD", some 5⟩] (by simp) (by decide)

/-- C8: on an empty list, or any payload that is not a list of quote
records, the engine's computation never renders a score table: the
outcome is one of the informational/error states. -/
theorem claim_C8_no_data (p : Payload)
    (h : p = .list [] ∨ ∀ l, p ≠ .list l) :
    (∀ t, show_currency_meter p ≠ .scores t) ∧
    (show_currency_meter p = .loadError ∨
      ∃ m, show_currency_meter p = .apiError m) := by
  rcases h with rfl | h
  · exact ⟨by simp [show_currency_meter], Or.inl (by simp [show_currency_meter])⟩
  · cases p with
    | list l => exact absurd rfl (h l)
    | dict f =>
        by_cases he : hasErrorMessage f
        · exact ⟨by simp [show_currency_meter, he],
            Or.inr ⟨(((f.filter fun p => p.1 = "Error Message").head?.map
                Prod.snd).getD ""),
              by simp [show_currency_meter, he]⟩⟩
        · exact ⟨by simp [show_currency_meter, he],
            Or.inl (by simp [show_currency_meter, he])⟩
    | other => exact ⟨by simp [show_currency_meter], Or.inl rfl⟩

/-- Witness for C8 at Scenario 2's input, the empty list. -/
theorem claim_C8_witness :
    (∀ t, show_currency_meter (.list []) ≠ .scores t) ∧
    (show_currency_meter (.list []) = .loadError ∨
      ∃ m, show_currency_meter (.list []) = .apiError m) :=
  claim_C8_no_data (.list []) (Or.inl rfl)

/-- C1 as stated is false: with two EURUSD quotes in the input, the first
retained quote has change 1 but the output strength of EUR is 2 (the dict
assignment keeps the later quote). -/
theorem claim_C1_counterexample :
    ¬ (∀ (data : List Quote) (t : List (String × ℚ)) (q : Quote),
        show_currency_meter (.list data) = .scores t → q ∈ data →
        ((q.symbol ∈ basePairs →
            getScore (q.symbol.take 3) t =
              some (q.changesPercentage.getD 0)) ∧
         (q.symbol ∈ usdPairs →
            getScore (q.symbol.drop 3) t =
              some (-(q.changesPercentage.getD 0))))) := by
  intro h
  have hc := (h [⟨"EURUSD", some 1⟩, ⟨"EURUSD", some 2⟩]
      [("EUR", 2), ("USD", 0)] ⟨"EURUSD", some 1⟩
      (by with_unfolding_all decide) (by simp)).1 (by decide)
  exact absurd hc (by with_unfolding_all decide)

/-- C1 amended: for every retained basket quote that is the last quote of
its symbol in the input, the orientation law holds — the output strength
of the first-three-letter currency equals the change for base-quoted
pairs, and the output strength of the last-three-letter currency equals
the negated change for USD-quoted pairs. -/
theorem claim_C1_orientation_last (l₁ l₂ : List Quote) (q : Quote)
    (t : List (String × ℚ)) (hlast : ∀ r ∈ l₂, r.symbol ≠ q.symbol)
    (ht : show_currency_meter (.list (l₁ ++ q :: l₂)) = .scores t) :
    (q.symbol ∈ basePairs →
      getScore (q.symbol.take 3) t = some (q.changesPercentage.getD 0)) ∧
    (q.symbol ∈ usdPairs →
      getScore (q.symbol.drop 3) t = some (-(q.changesPercentage.getD 0))) := by
  obtain ⟨hne, rfl⟩ := show_scores_iff.mp ht
  constructor
  · intro hb
    have hm : q.symbol ∈ majors := mem_majors_iff.mpr (Or.inl hb)
    have h := getScore_last_occurrence l₁ l₂ q hm hlast
    rwa [show currencyOf q.symbol = q.symbol.take 3 from by
        simp [currencyOf, hb],
      show signedChange q = q.changesPercentage.getD 0 from by
        simp [signedChange, hb]] at h
  · intro hu
    have hm : q.symbol ∈ majors := mem_majors_iff.mpr (Or.inr hu)
    have h := getScore_last_occurrence l₁ l₂ q hm hlast
    rwa [show currencyOf q.symbol = q.symbol.drop 3 from by
        simp [currencyOf, usdPairs_not_basePairs hu],
      show signedChange q = -(q.changesPercentage.getD 0) from by
        simp [signedChange, usdPairs_not_basePairs hu]] at h

/-- Witness for the amended C1 at the concrete input `[{USDJPY, +0.3}]`. -/
theorem claim_C1_witness :
    ((⟨"USDJPY", some 0.3⟩ : Quote).symbol ∈ basePairs →
      getScore ((⟨"USDJPY", some 0.3⟩ : Quote).symbol.take 3)
          [("USD", (0 : ℚ)), ("JPY", -0.3)] =
        some ((⟨"USDJPY", some 0.3⟩ : Quote).changesPercentage.getD 0)) ∧
    ((⟨"USDJPY", some 0.3⟩ : Quote).symbol ∈ usdPairs →
      getScore ((⟨"USDJPY", some 0.3⟩ : Quote).symbol.drop 3)
          [("USD", (0 : ℚ)), ("JPY", -0.3)] =
        some (-((⟨"USDJPY", some 0.3⟩ : Quote).changesPercentage.getD 0))) :=
  claim_C1_orientation_last [] [] ⟨"USDJPY", some 0.3⟩
    [("USD", 0), ("JPY", -0.3)] (by simp) (by with_unfolding_all decide)

/-- C5: the claim states the code's own documented intent (the loop's
guard is commented as protecting against a null change), but the code
diverges at the failing input `[{EURUSD, 0.5}, {GBPUSD, null}]`: because
one change in the payload is numeric, `pd.DataFrame` stores the
`changesPercentage` column as float64 and the null reaches the loop as
NaN, on which the `change is None` guard never fires; GBP's recorded
strength is NaN rather than the claimed exact 0.0 (and NaN is not 0). -/
theorem claim_C5_nan_divergence :
    getScoreF "GBP" (strengthScoresFloat
        [⟨"EURUSD", pdCell (some 0.5)⟩, ⟨"GBPUSD", pdCell none⟩]) =
      some PdFloat.nan ∧ PdFloat.nan ≠ PdFloat.num 0 := by
  with_unfolding_all decide

/-- C9 as stated is false: two EURUSD quotes with change 1 give a table
whose absolute strengths sum to 1, while the absolute input changes sum
to 2. -/
theorem claim_C9_counterexample :
    ¬ (∀ (data : List Quote) (t : List (String × ℚ)),
        (∀ q ∈ data, q.symbol ∈ majors ∧ q.changesPercentage.isSome) →
        show_currency_meter (.list data) = .scores t →
        absStrengthSum t = absChangeSum data) := by
  intro h
  have hc := h [⟨"EURUSD", some 1⟩, ⟨"EURUSD", some 1⟩]
      [("EUR", 1), ("USD", 0)] (by decide) (by with_unfolding_all decide)
  exact absurd hc (by with_unfolding_all decide)

/-- C9 amended: for inputs containing only basket symbols with numeric
change values and pairwise-distinct symbols, the sum of absolute output
strengths equals the sum of absolute input changes (USD contributes 0). -/
theorem claim_C9_abs_sum (data : List Quote) (t : List (String × ℚ))
    (hall : ∀ q ∈ data, q.symbol ∈ majors ∧ q.changesPercentage.isSome)
    (hnd : (data.map Quote.symbol).Nodup)
    (ht : show_currency_meter (.list data) = .scores t) :
    absStrengthSum t = absChangeSum data := by
  obtain ⟨hne, rfl⟩ := show_scores_iff.mp ht
  have hmaj : ∀ q ∈ data, q.symbol ∈ majors := fun q hq => (hall q hq).1
  have hfd : filteredQuotes data = data :=
    List.filter_eq_self.mpr fun q hq => by simpa using hmaj q hq
  rw [hfd]
  have hperm : absStrengthSum (rankedScores data) =
      absStrengthSum (strengthScores data) := by
    unfold absStrengthSum
    exact ((rankedScores_perm data).map _).sum_eq
  rw [hperm, strengthScores_all_major data hmaj hnd]
  unfold absStrengthSum absChangeSum
  simp only [List.map_append, List.sum_append, List.map_map,
    Function.comp_def, List.map_cons, List.map_nil, List.sum_cons,
    List.sum_nil, abs_zero, add_zero]
  congr 1
  refine List.map_congr_left fun q hq => ?_
  by_cases hb : q.symbol ∈ basePairs <;> simp [signedChange, hb, abs_neg]

/-- Witness for the amended C9 at the concrete input `[{EURUSD, +0.5}]`. -/
theorem claim_C9_witness :
    absStrengthSum [("EUR", (0.5 : ℚ)), ("USD", 0)] =
      absChangeSum [⟨"EURUSD", some 0.5⟩] :=
  claim_C9_abs_sum [⟨"EURUSD", some 0.5⟩] [("EUR", 0.5), ("USD", 0)]
    (by decide) (by simp) (by with_unfolding_all decide)

/-- C10: when a basket symbol occurs several times, the rendered strength
for its currency is the one of the last such quote in input order, and
the currency still appears exactly once in the table. -/
theorem claim_C10_last_wins (l₁ l₂ : List Quote) (q : Quote)
    (t : List (String × ℚ)) (hdup : ∃ r ∈ l₁, r.symbol = q.symbol)
    (hm : q.symbol ∈ majors) (hlast : ∀ r ∈ l₂, r.symbol ≠ q.symbol)
    (ht : show_currency_meter (.list (l₁ ++ q :: l₂)) = .scores t) :
    getScore (currencyOf q.symbol) t = some (signedChange q) ∧
    (keys t).count (currencyOf q.symbol) = 1 := by
  obtain ⟨hne, rfl⟩ := show_scores_iff.mp ht
  have hg := getScore_last_occurrence l₁ l₂ q hm hlast
  refine ⟨hg, ?_⟩
  have hmem : currencyOf q.symbol ∈ keys (rankedScores (filteredQuotes
      (l₁ ++ q :: l₂))) :=
    List.mem_map.mpr ⟨_, getScore_some_mem hg, rfl⟩
  exact List.count_eq_one_of_mem (nodup_keys_rankedScores _) hmem

/-- Witness for C10 at the concrete input `[{EURUSD, +1}, {EURUSD, +2}]`. -/
theorem claim_C10_witness :
    getScore (currencyOf (⟨"EURUSD", some 2⟩ : Quote).symbol)
        [("EUR", (2 : ℚ)), ("USD", 0)] =
      some (signedChange ⟨"EURUSD", some 2⟩) ∧
    (keys [("EUR", (2 : ℚ)), ("USD", 0)]).count
        (currencyOf (⟨"EURUSD", some 2⟩ : Quote).symbol) = 1 :=
  claim_C10_last_wins [⟨"EURUSD", some 1⟩] [] ⟨"EURUSD", some 2⟩
    [("EUR", 2), ("USD", 0)] ⟨⟨"EURUSD", some 1⟩, by simp, rfl⟩
    (by decide) (by simp) (by with_unfolding_all decide)
